import Mathlib

/-!
# StringUtils: a shallow embedding of `src/src/StringUtils.cpp`

A `std::string` is embedded as a `List Char`, a `std::vector<std::string>` as a
`List (List Char)`.  `size_t` values are natural numbers below `2 ^ 64`; the
arithmetic the source performs on them wraps modulo `2 ^ 64`.  A well-formed
`std::string` has fewer than `npos` characters, which is the only assumption
made on inputs.

The standard-library operations that the source calls (`find_first_not_of`,
`find_last_not_of`, `substr`, `std::getline` on a `std::stringstream`) are
embedded with the behaviour the C++ standard gives them.  A token read by
`std::getline` is a part of the input string, so the `max_size()` limit on a
token is never met and is left out.
-/

namespace StringUtils

/-! ## Data model -/

/-- The largest `size_t` value, `std::string::npos`. -/
def npos : Nat := 2 ^ 64 - 1

/-- The character set literal `" \t\n\r"` used by `trim`. -/
def whitespace : List Char := [' ', '\t', '\n', '\r']

/-! ## Standard-library operations used by `trim` -/

/-- Forward scan of `find_first_not_of`: `i` is the index of the head of the
remaining characters; the answer is the first index whose character is not in
`chars`, or `npos` when the scan reaches the end. -/
def find_first_not_of_from (chars : List Char) : List Char → Nat → Nat
  | [], _ => npos
  | c :: cs, i => if c ∈ chars then find_first_not_of_from chars cs (i + 1) else i

/-- The call `str.find_first_not_of(chars)`. -/
def find_first_not_of (str chars : List Char) : Nat :=
  find_first_not_of_from chars str 0

/-- Backward scan of `find_last_not_of`: examines the indices `n - 1, ..., 0`
and answers the first one met whose character is not in `chars`, or `npos`.
The scan starts below `size()`, so every index examined holds a character. -/
def find_last_not_of_below (chars str : List Char) : Nat → Nat
  | 0 => npos
  | n + 1 =>
    match str[n]? with
    | some c => if c ∈ chars then find_last_not_of_below chars str n else n
    | none => npos

/-- The call `str.find_last_not_of(chars)`. -/
def find_last_not_of (str chars : List Char) : Nat :=
  find_last_not_of_below chars str str.length

/-- The call `str.substr(pos, n)`: `none` stands for the `std::out_of_range`
exception thrown when `pos > size()`; otherwise the result holds the
characters from `pos` on, at most `n` of them. -/
def substr (str : List Char) (pos n : Nat) : Option (List Char) :=
  if pos > str.length then none else some ((str.drop pos).take n)

/-- The `size_t` expression `end - start + 1`, computed modulo `2 ^ 64`. -/
def sliceLength (start end_ : Nat) : Nat :=
  ((end_ + 2 ^ 64 - start) % 2 ^ 64 + 1) % 2 ^ 64

/-! ## `StringUtils::trim` -/

/-- The function `StringUtils::trim`; `none` would be an escaping exception. -/
def trim (str : List Char) : Option (List Char) :=
  let start := find_first_not_of str whitespace
  if start = npos then some []
  else
    let end_ := find_last_not_of str whitespace
    substr str start (sliceLength start end_)

/-! ## Standard-library operations used by `split` -/

/-- The part of a `std::stringstream` that `split` observes: the characters
not yet read and the two state bits that `std::getline` sets. -/
structure IStream where
  buf : List Char
  eofbit : Bool
  failbit : Bool
deriving DecidableEq, Repr

/-- The stream `std::stringstream ss(str)`: all of `str` unread, state good. -/
def IStream.ofString (str : List Char) : IStream :=
  { buf := str, eofbit := false, failbit := false }

/-- The conversion of a stream to `bool` in a loop condition: `!fail()`. -/
def IStream.ok (ss : IStream) : Bool := !ss.failbit

/-- The extraction loop of `std::getline`: characters are moved to the token
until the end of the buffer is met (third component `true`) or the next
character is the delimiter, which is taken from the buffer and dropped
(third component `false`).  The second component is what stays unread. -/
def extract (delim : Char) : List Char → List Char × List Char × Bool
  | [] => ([], [], true)
  | c :: cs =>
    if c = delim then ([], cs, false)
    else
      let r := extract delim cs
      (c :: r.1, r.2.1, r.2.2)

/-- The call `std::getline(ss, token, delim)`: the new stream state and the
new value of `token`.  On a stream that is not good the sentry fails: the
token is left alone and `failbit` is set.  Otherwise the token is erased and
refilled; meeting the end sets `eofbit`, and `failbit` is set when nothing was
extracted, not even a delimiter. -/
def getline (ss : IStream) (token : List Char) (delim : Char) : IStream × List Char :=
  if ss.eofbit || ss.failbit then
    ({ ss with failbit := true }, token)
  else
    let r := extract delim ss.buf
    let extracted := r.1.length + (if r.2.2 then 0 else 1)
    ({ buf := r.2.1, eofbit := r.2.2, failbit := decide (extracted = 0) }, r.1)

/-- What is left to read by a stream, counting the end itself once. -/
def IStream.remaining (ss : IStream) : Nat :=
  if ss.eofbit || ss.failbit then 0 else ss.buf.length + 1

/-! ## `StringUtils::split` -/

/-- The loop `while (std::getline(ss, token, delimiter)) tokens.push_back(token);`
started from the given stream, token and vector; the answer is the vector when
the loop is left. -/
def splitLoop (delim : Char) (ss : IStream) (token : List Char)
    (tokens : List (List Char)) : List (List Char) :=
  if _h : (getline ss token delim).1.ok = true then
    splitLoop delim (getline ss token delim).1 (getline ss token delim).2
      (tokens ++ [(getline ss token delim).2])
  else tokens
termination_by ss.remaining
decreasing_by
  have hle : ∀ s : List Char, (extract delim s).2.1.length ≤ s.length := by
    intro s
    induction s with
    | nil => simp [extract]
    | cons c cs ih =>
      unfold extract
      split
      · simp
      · simp only [List.length_cons]; omega
  have hlt : ∀ s : List Char, (extract delim s).2.2 = false →
      (extract delim s).2.1.length < s.length := by
    intro s hs
    cases s with
    | nil => simp [extract] at hs
    | cons c cs =>
      unfold extract
      split
      · simp
      · have := hle cs
        simp only [List.length_cons]; omega
  have hok : (getline ss token delim).1.ok = true := by assumption
  unfold getline at hok ⊢
  split
  · rename_i hbad
    rw [if_pos hbad] at hok
    simp [IStream.ok] at hok
  · rename_i hgood
    simp only [IStream.remaining, if_neg hgood]
    cases hr : (extract delim ss.buf).2.2
    · simpa using hlt ss.buf hr
    · simp

/-- The function `StringUtils::split`. -/
def split (str : List Char) (delimiter : Char) : List (List Char) :=
  splitLoop delimiter (IStream.ofString str) [] []

/-! ## Standard-library operations used by the case conversions -/

/-- The C function `::toupper` in the default "C" locale: the codes of the
letters `a` to `z` (97 to 122) are moved to those of `A` to `Z`, every other
value is returned unchanged. -/
def toupper (c : Int) : Int :=
  if 97 ≤ c ∧ c ≤ 122 then c - 32 else c

/-- The C function `::tolower` in the default "C" locale: the codes of the
letters `A` to `Z` (65 to 90) are moved to those of `a` to `z`, every other
value is returned unchanged. -/
def tolower (c : Int) : Int :=
  if 65 ≤ c ∧ c ≤ 90 then c + 32 else c

/-- One step of `std::transform` with an `int (*)(int)` operation: the
character is converted to `int`, the operation is called, and its answer is
converted back to a character when it is stored. -/
def applyToChar (op : Int → Int) (ch : Char) : Char :=
  Char.ofNat (op (ch.toNat : Int)).toNat

/-- The call `std::transform(result.begin(), result.end(), result.begin(), op)`:
every position of `result` is overwritten with the operation applied to it. -/
def transform (op : Int → Int) (result : List Char) : List Char :=
  result.map (applyToChar op)

/-! ## `StringUtils::toUpperCase` and `StringUtils::toLowerCase` -/

/-- The function `StringUtils::toUpperCase`. -/
def toUpperCase (str : List Char) : List Char :=
  let result := str
  transform toupper result

/-- The function `StringUtils::toLowerCase`. -/
def toLowerCase (str : List Char) : List Char :=
  let result := str
  transform tolower result

/-! ## Notions used to state the properties of `split` -/

/-- Joining a list of tokens with the delimiter written between consecutive
tokens (and nowhere else). -/
def join : List (List Char) → Char → List Char
  | [], _ => []
  | [t], _ => t
  | t :: u :: rest, d => t ++ d :: join (u :: rest) d

/-- The token list in closed form, by recursion on the input: a delimiter
opens a new token in front, any other character goes in front of the first
token of what follows.  `split_eq_tokensOf` shows that the loop of `split`
computes it. -/
def tokensOf (delim : Char) : List Char → List (List Char)
  | [] => []
  | c :: cs =>
    if c = delim then [] :: tokensOf delim cs
    else
      match tokensOf delim cs with
      | [] => [[c]]
      | t :: ts => (c :: t) :: ts

/-! ## Notions used to state the properties of the case conversions -/

/-- The lowercase letters, in alphabetical order. -/
def lowerLetters : List Char :=
  ['a', 'b', 'c', 'd', 'e', 'f', 'g', 'h', 'i', 'j', 'k', 'l', 'm',
   'n', 'o', 'p', 'q', 'r', 's', 't', 'u', 'v', 'w', 'x', 'y', 'z']

/-- The uppercase letters, in alphabetical order: the letter at a position is
the uppercase counterpart of the lowercase letter at the same position. -/
def upperLetters : List Char :=
  ['A', 'B', 'C', 'D', 'E', 'F', 'G', 'H', 'I', 'J', 'K', 'L', 'M',
   'N', 'O', 'P', 'Q', 'R', 'S', 'T', 'U', 'V', 'W', 'X', 'Y', 'Z']

/-- An ASCII string: every character has a code below 128. -/
def isAscii (str : List Char) : Prop :=
  ∀ c ∈ str, c.toNat < 128

/-! ## The loop of `split` in closed form -/

theorem extract_rest_length_le (delim : Char) (s : List Char) :
    (extract delim s).2.1.length ≤ s.length := by
  induction s with
  | nil => simp [extract]
  | cons c cs ih =>
    unfold extract
    split
    · simp
    · simp only [List.length_cons]; omega

theorem extract_rest_length_lt (delim : Char) (s : List Char)
    (h : (extract delim s).2.2 = false) : (extract delim s).2.1.length < s.length := by
  induction s with
  | nil => simp [extract] at h
  | cons c cs ih =>
    unfold extract
    split
    · simp
    · have := extract_rest_length_le delim cs
      simp only [List.length_cons]; omega

/-- The function `join` is the library's `List.intercalate` with a one-character
separator. -/
theorem join_eq_intercalate (L : List (List Char)) (d : Char) :
    join L d = [d].intercalate L := by
  induction L with
  | nil => rfl
  | cons t rest ih =>
    cases rest with
    | nil => simp [join, List.intercalate]
    | cons u rest =>
      rw [join, ih]
      simp [List.intercalate, List.intersperse]

theorem tokensOf_ne_nil (d : Char) (c : Char) (cs : List Char) :
    tokensOf d (c :: cs) ≠ [] := by
  unfold tokensOf
  split
  · simp
  · split <;> simp

theorem extract_eof_tokensOf (d : Char) (c : Char) (cs : List Char)
    (h : (extract d (c :: cs)).2.2 = true) :
    tokensOf d (c :: cs) = [(extract d (c :: cs)).1] ∧ (extract d (c :: cs)).2.1 = [] := by
  induction cs generalizing c with
  | nil =>
    unfold extract at h ⊢
    unfold tokensOf
    split
    · rename_i hc; simp [hc] at h
    · simp [extract, tokensOf]
  | cons c2 cs ih =>
    unfold extract at h ⊢
    unfold tokensOf
    split
    · rename_i hc; simp [hc] at h
    · rename_i hc
      simp only [hc, if_false] at h
      obtain ⟨h1, h2⟩ := ih c2 h
      simp [h1, h2]

theorem extract_delim_tokensOf (d : Char) (s : List Char)
    (h : (extract d s).2.2 = false) :
    tokensOf d s = (extract d s).1 :: tokensOf d (extract d s).2.1 := by
  induction s with
  | nil => simp [extract] at h
  | cons c cs ih =>
    unfold extract at h ⊢
    rw [tokensOf]
    split
    · simp
    · rename_i hc
      simp only [hc, if_false] at h
      simp [ih h]

/-- On a stream that is not good the loop condition fails at once. -/
theorem splitLoop_bad (d : Char) (ss : IStream) (token : List Char)
    (tokens : List (List Char)) (h : (ss.eofbit || ss.failbit) = true) :
    splitLoop d ss token tokens = tokens := by
  rw [splitLoop]
  simp [getline, h, IStream.ok]

/-- Started on a good stream, the loop appends the closed form of the unread
characters to the vector, whatever the token held before. -/
theorem splitLoop_good (d : Char) (s : List Char) (token : List Char)
    (tokens : List (List Char)) :
    splitLoop d { buf := s, eofbit := false, failbit := false } token tokens
      = tokens ++ tokensOf d s := by
  generalize hn : s.length = n
  induction n using Nat.strong_induction_on generalizing s token tokens with
  | _ n ih =>
    cases s with
    | nil =>
      rw [splitLoop]
      simp [getline, extract, IStream.ok, tokensOf]
    | cons c cs =>
      rw [splitLoop]
      cases he : (extract d (c :: cs)).2.2
      · have hlt := extract_rest_length_lt d (c :: cs) he
        have hstep := extract_delim_tokensOf d (c :: cs) he
        have hok : (getline { buf := c :: cs, eofbit := false, failbit := false } token d).1.ok
            = true := by
          simp [getline, he, IStream.ok]
        rw [dif_pos hok]
        have hst : getline { buf := c :: cs, eofbit := false, failbit := false } token d
            = ({ buf := (extract d (c :: cs)).2.1, eofbit := false, failbit := false },
               (extract d (c :: cs)).1) := by
          simp [getline, he]
        rw [hst]
        rw [ih _ (by rw [← hn]; exact hlt) _ _ _ rfl, hstep]
        simp
      · obtain ⟨h1, h2⟩ := extract_eof_tokensOf d c cs he
        have hne : (extract d (c :: cs)).1 ≠ [] := by
          intro h0
          rw [h0] at h1
          have hh : tokensOf d (c :: cs) = [[]] := h1
          unfold tokensOf at hh
          split at hh
          · rename_i hc
            unfold extract at he
            simp [hc] at he
          · split at hh <;> simp at hh
        have hst : getline { buf := c :: cs, eofbit := false, failbit := false } token d
            = ({ buf := [], eofbit := true, failbit := false },
               (extract d (c :: cs)).1) := by
          simp [getline, he, h2, hne]
        have hok : (getline { buf := c :: cs, eofbit := false, failbit := false } token d).1.ok
            = true := by
          rw [hst]; rfl
        rw [dif_pos hok, hst, splitLoop_bad _ _ _ _ (by rfl), h1]

/-- The loop of `split` computes the closed form `tokensOf`. -/
theorem split_eq_tokensOf (str : List Char) (d : Char) : split str d = tokensOf d str := by
  simp [split, IStream.ofString, splitLoop_good]

/-! ## Properties of the closed form -/

theorem join_cons_head (c : Char) (t : List Char) (ts : List (List Char)) (d : Char) :
    join ((c :: t) :: ts) d = c :: join (t :: ts) d := by
  cases ts <;> simp [join]

theorem join_tokensOf (d : Char) (s : List Char) (h : s.getLast? ≠ some d) :
    join (tokensOf d s) d = s := by
  induction s with
  | nil => simp [tokensOf, join]
  | cons c cs ih =>
    cases cs with
    | nil =>
      have hc : ¬ c = d := by
        intro hc; apply h; simp [hc]
      simp [tokensOf, hc, join]
    | cons c2 cs =>
      have hlast : (c :: c2 :: cs).getLast? = (c2 :: cs).getLast? := by
        simp [List.getLast?_cons_cons]
      rw [hlast] at h
      have ih2 := ih h
      have hne := tokensOf_ne_nil d c2 cs
      cases ht : tokensOf d (c2 :: cs) with
      | nil => exact absurd ht hne
      | cons t ts =>
        rw [ht] at ih2
        by_cases hc : c = d
        · rw [tokensOf, if_pos hc, ht, join, ih2, hc]
          simp
        · rw [tokensOf, if_neg hc, ht]
          simp only
          rw [join_cons_head, ih2]

theorem tokensOf_no_delim (d : Char) (s : List Char) (hs : s ≠ []) (h : d ∉ s) :
    tokensOf d s = [s] := by
  induction s with
  | nil => exact absurd rfl hs
  | cons c cs ih =>
    have hc : ¬ c = d := by
      intro hc; apply h; simp [hc]
    have hcs : d ∉ cs := fun hmem => h (List.mem_cons_of_mem _ hmem)
    rw [tokensOf, if_neg hc]
    cases cs with
    | nil => simp [tokensOf]
    | cons c2 cs => rw [ih (by simp) hcs]

theorem tokensOf_append_delim (d : Char) (t s : List Char) (h : d ∉ t) :
    tokensOf d (t ++ d :: s) = t :: tokensOf d s := by
  induction t with
  | nil => simp [tokensOf]
  | cons c t ih =>
    have hc : ¬ c = d := by
      intro hc; apply h; simp [hc]
    have ht : d ∉ t := fun hmem => h (List.mem_cons_of_mem _ hmem)
    rw [List.cons_append, tokensOf, if_neg hc, ih ht]

theorem tokensOf_join (d : Char) (L : List (List Char)) (hd : ∀ t ∈ L, d ∉ t)
    (hlast : L.getLast? ≠ some []) : tokensOf d (join L d) = L := by
  induction L with
  | nil => simp [join, tokensOf]
  | cons t rest ih =>
    cases rest with
    | nil =>
      have ht : t ≠ [] := by
        intro h0; apply hlast; simp [h0]
      simpa [join] using tokensOf_no_delim d t ht (hd t (by simp))
    | cons u rest =>
      have hlast2 : (u :: rest).getLast? ≠ some [] := by
        simpa [List.getLast?_cons_cons] using hlast
      rw [join, tokensOf_append_delim d t _ (hd t (by simp)),
        ih (fun x hx => hd x (List.mem_cons_of_mem _ hx)) hlast2]

theorem tokensOf_no_delim_mem (d : Char) (s : List Char) :
    ∀ t ∈ tokensOf d s, d ∉ t := by
  induction s with
  | nil => simp [tokensOf]
  | cons c cs ih =>
    intro t ht
    unfold tokensOf at ht
    split at ht
    · rcases List.mem_cons.mp ht with h | h
      · simp [h]
      · exact ih t h
    · rename_i hc
      split at ht
      · simp only [List.mem_singleton] at ht
        subst ht
        intro hmem
        simp only [List.mem_singleton] at hmem
        exact hc hmem.symm
      · rename_i t0 ts heq
        rcases List.mem_cons.mp ht with h | h
        · subst h
          intro hmem
          rcases List.mem_cons.mp hmem with h1 | h1
          · exact hc h1.symm
          · exact ih t0 (by rw [heq]; simp) h1
        · exact ih t (by rw [heq]; simp [h])

/-! ## The scans of `trim` -/

theorem find_first_not_of_from_spec (chars str : List Char) (i : Nat)
    (h : i + str.length < npos) :
    (find_first_not_of_from chars str i = npos ∧ ∀ c ∈ str, c ∈ chars) ∨
    (∃ k c, find_first_not_of_from chars str i = i + k ∧ str[k]? = some c ∧ c ∉ chars ∧
      ∀ j c2, j < k → str[j]? = some c2 → c2 ∈ chars) := by
  induction str generalizing i with
  | nil => left; simp [find_first_not_of_from]
  | cons c cs ih =>
    unfold find_first_not_of_from
    split
    · rename_i hc
      have hlen : i + 1 + cs.length < npos := by
        simp only [List.length_cons] at h; omega
      rcases ih (i + 1) hlen with ⟨h1, h2⟩ | ⟨k, c1, h1, h2, h3, h4⟩
      · left
        refine ⟨h1, ?_⟩
        intro x hx
        rcases List.mem_cons.mp hx with hx | hx
        · rw [hx]; exact hc
        · exact h2 x hx
      · right
        refine ⟨k + 1, c1, by rw [h1]; omega, by simpa using h2, h3, ?_⟩
        intro j c2 hj hget
        cases j with
        | zero =>
          simp only [List.getElem?_cons_zero, Option.some.injEq] at hget
          rw [← hget]; exact hc
        | succ j =>
          simp only [List.getElem?_cons_succ] at hget
          exact h4 j c2 (by omega) hget
    · rename_i hc
      right
      exact ⟨0, c, rfl, by simp, hc, by intro j c2 hj; omega⟩

theorem find_last_not_of_below_spec (chars str : List Char) (n : Nat)
    (h : n ≤ str.length) :
    (find_last_not_of_below chars str n = npos ∧
      ∀ j c, j < n → str[j]? = some c → c ∈ chars) ∨
    (∃ e c, find_last_not_of_below chars str n = e ∧ e < n ∧ str[e]? = some c ∧ c ∉ chars ∧
      ∀ j c2, e < j → j < n → str[j]? = some c2 → c2 ∈ chars) := by
  induction n with
  | zero =>
    left
    exact ⟨rfl, by intro j c hj; omega⟩
  | succ n ih =>
    have hn : n < str.length := h
    have hget : str[n]? = some str[n] := List.getElem?_eq_getElem hn
    unfold find_last_not_of_below
    rw [hget]
    simp only
    split
    · rename_i hc
      rcases ih (by omega) with ⟨h1, h2⟩ | ⟨e, c1, h1, h2, h3, h4, h5⟩
      · left
        refine ⟨h1, ?_⟩
        intro j c hj hjc
        by_cases hjn : j = n
        · subst hjn
          rw [hget] at hjc
          simp only [Option.some.injEq] at hjc
          rw [← hjc]; exact hc
        · exact h2 j c (by omega) hjc
      · right
        refine ⟨e, c1, h1, by omega, h3, h4, ?_⟩
        intro j c2 hej hj hjc
        by_cases hjn : j = n
        · subst hjn
          rw [hget] at hjc
          simp only [Option.some.injEq] at hjc
          rw [← hjc]; exact hc
        · exact h5 j c2 hej (by omega) hjc
    · rename_i hc
      right
      exact ⟨n, str[n], rfl, by omega, hget, hc, by intro j c2 h1 h2; omega⟩

/-- The `size_t` expression `end - start + 1` does not wrap when
`start ≤ end < npos`. -/
theorem sliceLength_eq (s e : Nat) (hse : s ≤ e) (he : e < npos) :
    sliceLength s e = e - s + 1 := by
  unfold sliceLength
  unfold npos at he
  omega

/-- Both outcomes of `trim` on a well-formed string: either every character is
whitespace and the result is empty, or the two scans find indices
`s ≤ e < size` of non-whitespace characters with only whitespace outside
`[s, e]`, and the result is the slice from `s` to `e`. -/
theorem trim_cases (T : List Char) (h : T.length < npos) :
    (trim T = some [] ∧ ∀ c ∈ T, c ∈ whitespace) ∨
    (∃ s e a b, s ≤ e ∧ e < T.length ∧
      find_first_not_of T whitespace = s ∧ find_last_not_of T whitespace = e ∧
      trim T = some ((T.drop s).take (e - s + 1)) ∧
      T[s]? = some a ∧ a ∉ whitespace ∧ T[e]? = some b ∧ b ∉ whitespace ∧
      (∀ j c, j < s → T[j]? = some c → c ∈ whitespace) ∧
      (∀ j c, e < j → T[j]? = some c → c ∈ whitespace)) := by
  rcases find_first_not_of_from_spec whitespace T 0 (by omega) with
    ⟨h1, h2⟩ | ⟨s, a, h1, h2, h3, h4⟩
  · left
    refine ⟨?_, h2⟩
    simp [trim, find_first_not_of, h1]
  · right
    rw [Nat.zero_add] at h1
    have hs : s < T.length := by
      rcases List.getElem?_eq_some_iff.mp h2 with ⟨hlt, _⟩
      exact hlt
    rcases find_last_not_of_below_spec whitespace T T.length (Nat.le_refl _) with
      ⟨_, g2⟩ | ⟨e, b, g1, g2, g3, g4, g5⟩
    · exact absurd (g2 s a hs h2) h3
    · have hse : s ≤ e := by
        by_contra hlt
        exact g4 (h4 e b (by omega) g3)
      refine ⟨s, e, a, b, hse, g2, h1, g1, ?_, h2, h3, g3, g4, h4, ?_⟩
      · have hne : ¬ s = npos := by omega
        have hgt : ¬ s > T.length := by omega
        simp only [trim, find_first_not_of, find_last_not_of] at h1 g1 ⊢
        rw [h1, g1, if_neg hne, substr, if_neg hgt, sliceLength_eq s e hse (by omega)]
      · intro j c hj hjc
        have hjl : j < T.length := by
          rcases List.getElem?_eq_some_iff.mp hjc with ⟨hlt, _⟩
          exact hlt
        exact g5 j c hj hjl hjc

theorem mem_take_index (T : List Char) (n : Nat) (c : Char) (h : c ∈ T.take n) :
    ∃ j, j < n ∧ T[j]? = some c := by
  rcases List.mem_iff_getElem?.mp h with ⟨j, hj⟩
  rw [List.getElem?_take] at hj
  by_cases hjn : j < n
  · exact ⟨j, hjn, by simpa [hjn] using hj⟩
  · simp [hjn] at hj

theorem mem_drop_index (T : List Char) (n : Nat) (c : Char) (h : c ∈ T.drop n) :
    ∃ j, n ≤ j ∧ T[j]? = some c := by
  rcases List.mem_iff_getElem?.mp h with ⟨j, hj⟩
  rw [List.getElem?_drop] at hj
  exact ⟨n + j, by omega, hj⟩

theorem slice_decomposition (T : List Char) (s e : Nat) (hse : s ≤ e) :
    T = T.take s ++ (T.drop s).take (e - s + 1) ++ T.drop (e + 1) := by
  have hdrop : T.drop (e + 1) = (T.drop s).drop (e - s + 1) := by
    rw [List.drop_drop]
    congr 1
    omega
  rw [hdrop, List.append_assoc, List.take_append_drop, List.take_append_drop]

theorem slice_head (T : List Char) (s e : Nat) :
    ((T.drop s).take (e - s + 1)).head? = T[s]? := by
  rw [List.head?_eq_getElem?, List.getElem?_take_of_lt (by omega), List.getElem?_drop]
  simp

theorem slice_getLast (T : List Char) (s e : Nat) (hse : s ≤ e) (he : e < T.length) :
    ((T.drop s).take (e - s + 1)).getLast? = T[e]? := by
  have hlen : ((T.drop s).take (e - s + 1)).length = e - s + 1 := by
    rw [List.length_take, List.length_drop]
    omega
  rw [List.getLast?_eq_getElem?, hlen, List.getElem?_take_of_lt (by omega), List.getElem?_drop]
  congr 1
  omega

theorem slice_whole (T : List Char) (hT : T ≠ []) :
    (T.drop 0).take (T.length - 1 - 0 + 1) = T := by
  have hpos : 0 < T.length := List.length_pos.mpr hT
  have hlen : T.length - 1 - 0 + 1 = T.length := by omega
  rw [hlen, List.drop_zero, List.take_length]

/-! ## The properties of `split` -/

/-- C1 fails on the code: on the non-empty input `"a,"`, which holds one
delimiter, `split` returns the single token `"a"` and not the two tokens that
the claim counts: the empty token after the final delimiter is missing.  The
same loop keeps the empty token in front of a leading delimiter (`",a"` gives
`["", "a"]`) and between two delimiters (`"a,,b"` gives `["a", "", "b"]`). -/
theorem split_drops_trailing_empty_token :
    ['a', ','] ≠ [] ∧ split ['a', ','] ',' = [['a']] ∧
      (split ['a', ','] ',').length ≠ List.count ',' ['a', ','] + 1 ∧
      split [',', 'a'] ',' = [[], ['a']] ∧
      split ['a', ',', ',', 'b'] ',' = [['a'], [], ['b']] := by
  simp only [split_eq_tokensOf]
  decide

/-- C2: when `T` does not end with `d` (the empty `T` included), joining the
tokens of `split T d` with `d` between consecutive tokens gives back `T`. -/
theorem split_join_roundtrip (T : List Char) (d : Char) (h : T.getLast? ≠ some d) :
    join (split T d) d = T := by
  rw [split_eq_tokensOf]
  exact join_tokensOf d T h

theorem split_join_roundtrip_witness :
    [',', 'a', ',', ',', 'b'].getLast? ≠ some ',' ∧
      join (split [',', 'a', ',', ',', 'b'] ',') ',' = [',', 'a', ',', ',', 'b'] :=
  ⟨by decide, split_join_roundtrip [',', 'a', ',', ',', 'b'] ',' (by decide)⟩

/-- C3: for a list `L` of strings none of which contains `d`, that is empty or
ends with a non-empty string, splitting the join of `L` gives back `L`; so
empty tokens at the start or in the middle are kept, as in
`split "a,,b" ','` and `split "a,b,c" ','`. -/
theorem split_of_join (d : Char) (L : List (List Char)) (hd : ∀ t ∈ L, d ∉ t)
    (hlast : L.getLast? ≠ some []) :
    split (join L d) d = L ∧
      split ['a', ',', ',', 'b'] ',' = [['a'], [], ['b']] ∧
      split ['a', ',', 'b', ',', 'c'] ',' = [['a'], ['b'], ['c']] := by
  refine ⟨?_, ?_, ?_⟩
  · rw [split_eq_tokensOf]
    exact tokensOf_join d L hd hlast
  · rw [split_eq_tokensOf]; decide
  · rw [split_eq_tokensOf]; decide

theorem split_of_join_witness :
    (∀ t ∈ [[], ['a'], [], ['b', 'c']], ',' ∉ t) ∧
      [[], ['a'], [], ['b', 'c']].getLast? ≠ some [] ∧
      (split (join [[], ['a'], [], ['b', 'c']] ',') ',' = [[], ['a'], [], ['b', 'c']] ∧
        split ['a', ',', ',', 'b'] ',' = [['a'], [], ['b']] ∧
        split ['a', ',', 'b', ',', 'c'] ',' = [['a'], ['b'], ['c']]) :=
  ⟨by decide, by decide,
    split_of_join ',' [[], ['a'], [], ['b', 'c']] (by decide) (by decide)⟩

/-- C4: splitting the empty string gives no token at all, for every delimiter. -/
theorem split_empty (d : Char) : split [] d = [] := by
  rw [split_eq_tokensOf]
  rfl

/-- C5: a non-empty input in which the delimiter does not occur is split into
the single token that is the whole input. -/
theorem split_no_delim (T : List Char) (d : Char) (hT : T ≠ []) (hd : d ∉ T) :
    split T d = [T] := by
  rw [split_eq_tokensOf]
  exact tokensOf_no_delim d T hT hd

theorem split_no_delim_witness :
    ['a', 'b', 'c'] ≠ [] ∧ ',' ∉ ['a', 'b', 'c'] ∧
      split ['a', 'b', 'c'] ',' = [['a', 'b', 'c']] :=
  ⟨by decide, by decide, split_no_delim ['a', 'b', 'c'] ',' (by decide) (by decide)⟩

/-- C6: no token of `split T d` contains the delimiter `d`. -/
theorem split_tokens_no_delim (T : List Char) (d : Char) :
    ∀ t ∈ split T d, d ∉ t := by
  rw [split_eq_tokensOf]
  exact tokensOf_no_delim_mem d T

theorem split_tokens_no_delim_witness :
    ['b'] ∈ split ['a', ',', 'b', ','] ',' ∧ ',' ∉ ['b'] :=
  ⟨by rw [split_eq_tokensOf]; decide,
    split_tokens_no_delim ['a', ',', 'b', ','] ',' ['b'] (by rw [split_eq_tokensOf]; decide)⟩

/-! ## The properties of `trim` -/

/-- C7: for every well-formed input `T`, `trim T` returns a string `R` with
`T = P ++ R ++ S` where `P` and `S` hold whitespace only: the result is a
contiguous slice of the input and only leading and trailing whitespace is
removed, as in `trim "  a b  " = "a b"`. -/
theorem trim_slice (T : List Char) (h : T.length < npos) :
    (∃ P R S, trim T = some R ∧ T = P ++ R ++ S ∧
        (∀ c ∈ P, c ∈ whitespace) ∧ (∀ c ∈ S, c ∈ whitespace)) ∧
      trim [' ', ' ', 'a', ' ', 'b', ' ', ' '] = some ['a', ' ', 'b'] := by
  refine ⟨?_, by decide⟩
  rcases trim_cases T h with ⟨h1, h2⟩ | ⟨s, e, a, b, hse, he, _, _, ht, _, _, _, _, hpre, hpost⟩
  · exact ⟨T, [], [], h1, by simp, h2, by simp⟩
  · refine ⟨T.take s, (T.drop s).take (e - s + 1), T.drop (e + 1), ht,
      slice_decomposition T s e hse, ?_, ?_⟩
    · intro c hc
      rcases mem_take_index T s c hc with ⟨j, hj, hjc⟩
      exact hpre j c hj hjc
    · intro c hc
      rcases mem_drop_index T (e + 1) c hc with ⟨j, hj, hjc⟩
      exact hpost j c (by omega) hjc

theorem trim_slice_witness :
    ['\t', 'x', ' ', 'y', '\n'].length < npos ∧
      ((∃ P R S, trim ['\t', 'x', ' ', 'y', '\n'] = some R ∧
          ['\t', 'x', ' ', 'y', '\n'] = P ++ R ++ S ∧
          (∀ c ∈ P, c ∈ whitespace) ∧ (∀ c ∈ S, c ∈ whitespace)) ∧
        trim [' ', ' ', 'a', ' ', 'b', ' ', ' '] = some ['a', ' ', 'b']) :=
  ⟨by decide, trim_slice ['\t', 'x', ' ', 'y', '\n'] (by decide)⟩

/-- C8: for every well-formed input `T`, `trim T` returns a string that, when
it is not empty, neither starts nor ends with a whitespace character. -/
theorem trim_ends_not_whitespace (T : List Char) (h : T.length < npos) :
    ∃ R, trim T = some R ∧
      (R ≠ [] → (∃ a, R.head? = some a ∧ a ∉ whitespace) ∧
        (∃ b, R.getLast? = some b ∧ b ∉ whitespace)) := by
  rcases trim_cases T h with ⟨h1, _⟩ | ⟨s, e, a, b, hse, he, _, _, ht, ha, ha2, hb, hb2, _, _⟩
  · exact ⟨[], h1, fun hne => absurd rfl hne⟩
  · refine ⟨(T.drop s).take (e - s + 1), ht, fun _ => ⟨⟨a, ?_, ha2⟩, ⟨b, ?_, hb2⟩⟩⟩
    · rw [slice_head, ha]
    · rw [slice_getLast T s e hse he, hb]

theorem trim_ends_not_whitespace_witness :
    [' ', '\r', 'x', ' ', 'y', ' ', '\t'].length < npos ∧
      ∃ R, trim [' ', '\r', 'x', ' ', 'y', ' ', '\t'] = some R ∧
        (R ≠ [] → (∃ a, R.head? = some a ∧ a ∉ whitespace) ∧
          (∃ b, R.getLast? = some b ∧ b ∉ whitespace)) :=
  ⟨by decide, trim_ends_not_whitespace [' ', '\r', 'x', ' ', 'y', ' ', '\t'] (by decide)⟩

/-- C9: when every character of `T` is whitespace (the empty `T` included),
`trim T` is the empty string. -/
theorem trim_all_whitespace (T : List Char) (h : ∀ c ∈ T, c ∈ whitespace) :
    trim T = some [] := by
  have hscan : ∀ (s : List Char) (i : Nat), (∀ c ∈ s, c ∈ whitespace) →
      find_first_not_of_from whitespace s i = npos := by
    intro s
    induction s with
    | nil => intro i _; rfl
    | cons c cs ih =>
      intro i hs
      rw [find_first_not_of_from, if_pos (hs c (by simp))]
      exact ih (i + 1) (fun x hx => hs x (List.mem_cons_of_mem _ hx))
  simp [trim, find_first_not_of, hscan T 0 h]

theorem trim_all_whitespace_witness :
    (∀ c ∈ [' ', '\t', '\n', '\r', ' '], c ∈ whitespace) ∧
      trim [' ', '\t', '\n', '\r', ' '] = some [] :=
  ⟨by decide, trim_all_whitespace [' ', '\t', '\n', '\r', ' '] (by decide)⟩

/-- C10: a well-formed input whose first and last characters, if it has any,
are not whitespace is returned unchanged by `trim`. -/
theorem trim_fixed (T : List Char) (h : T.length < npos)
    (hfirst : ∀ c, T.head? = some c → c ∉ whitespace)
    (hlast : ∀ c, T.getLast? = some c → c ∉ whitespace) :
    trim T = some T := by
  rcases trim_cases T h with ⟨h1, h2⟩ | ⟨s, e, a, b, hse, he, _, _, ht, _, _, _, _, hpre, hpost⟩
  · cases T with
    | nil => exact h1
    | cons c cs => exact absurd (h2 c (by simp)) (hfirst c rfl)
  · have hT : T ≠ [] := by
      intro h0; rw [h0] at he; simp at he
    have hs : s = 0 := by
      by_contra hne
      have h0 : T[0]? = some T[0] := List.getElem?_eq_getElem (by omega)
      exact hfirst T[0] (by rw [List.head?_eq_getElem?, h0]) (hpre 0 T[0] (by omega) h0)
    have hlen : e = T.length - 1 := by
      by_contra hne
      have hl : T[T.length - 1]? = some T[T.length - 1] :=
        List.getElem?_eq_getElem (by omega)
      exact hlast T[T.length - 1] (by rw [List.getLast?_eq_getElem?, hl])
        (hpost (T.length - 1) T[T.length - 1] (by omega) hl)
    rw [ht, hs, hlen, slice_whole T hT]

theorem trim_fixed_witness :
    ['a', ' ', '\t', 'b'].length < npos ∧
      (∀ c, ['a', ' ', '\t', 'b'].head? = some c → c ∉ whitespace) ∧
      (∀ c, ['a', ' ', '\t', 'b'].getLast? = some c → c ∉ whitespace) ∧
      trim ['a', ' ', '\t', 'b'] = some ['a', ' ', '\t', 'b'] :=
  ⟨by decide,
    by intro c hc; simp only [List.head?_cons, Option.some.injEq] at hc; subst hc; decide,
    by intro c hc; simp at hc; subst hc; decide,
    trim_fixed ['a', ' ', '\t', 'b'] (by decide)
      (by intro c hc; simp only [List.head?_cons, Option.some.injEq] at hc; subst hc; decide)
      (by intro c hc; simp at hc; subst hc; decide)⟩

/-! ## The case mappings, character by character -/

theorem mem_lowerLetters_iff (c : Char) :
    c ∈ lowerLetters ↔ 97 ≤ c.toNat ∧ c.toNat ≤ 122 := by
  constructor
  · have hall : ∀ x ∈ lowerLetters, 97 ≤ x.toNat ∧ x.toNat ≤ 122 := by decide
    exact hall c
  · rintro ⟨h1, h2⟩
    have hall : ∀ n, 97 ≤ n → n ≤ 122 → Char.ofNat n ∈ lowerLetters := by
      intro n g1 g2
      interval_cases n <;> decide
    have := hall c.toNat h1 h2
    rwa [Char.ofNat_toNat] at this

theorem mem_upperLetters_iff (c : Char) :
    c ∈ upperLetters ↔ 65 ≤ c.toNat ∧ c.toNat ≤ 90 := by
  constructor
  · have hall : ∀ x ∈ upperLetters, 65 ≤ x.toNat ∧ x.toNat ≤ 90 := by decide
    exact hall c
  · rintro ⟨h1, h2⟩
    have hall : ∀ n, 65 ≤ n → n ≤ 90 → Char.ofNat n ∈ upperLetters := by
      intro n g1 g2
      interval_cases n <;> decide
    have := hall c.toNat h1 h2
    rwa [Char.ofNat_toNat] at this

/-- The operation `toupper` leaves every character other than a lowercase
letter as it is. -/
theorem applyToChar_toupper_other (c : Char) (h : c ∉ lowerLetters) :
    applyToChar toupper c = c := by
  have hr : ¬ (97 ≤ (c.toNat : Int) ∧ (c.toNat : Int) ≤ 122) := by
    intro hc
    apply h
    rw [mem_lowerLetters_iff]
    omega
  simp only [applyToChar, toupper, if_neg hr, Int.toNat_ofNat, Char.ofNat_toNat]

/-- The operation `tolower` leaves every character other than an uppercase
letter as it is. -/
theorem applyToChar_tolower_other (c : Char) (h : c ∉ upperLetters) :
    applyToChar tolower c = c := by
  have hr : ¬ (65 ≤ (c.toNat : Int) ∧ (c.toNat : Int) ≤ 90) := by
    intro hc
    apply h
    rw [mem_upperLetters_iff]
    omega
  simp only [applyToChar, tolower, if_neg hr, Int.toNat_ofNat, Char.ofNat_toNat]

/-- The operation `toupper` sends each lowercase letter to the uppercase letter
at the same place of the alphabet. -/
theorem applyToChar_toupper_letter :
    ∀ k < 26, (lowerLetters[k]?).map (applyToChar toupper) = upperLetters[k]? := by
  decide

/-- The operation `tolower` sends each uppercase letter to the lowercase letter
at the same place of the alphabet. -/
theorem applyToChar_tolower_letter :
    ∀ k < 26, (upperLetters[k]?).map (applyToChar tolower) = lowerLetters[k]? := by
  decide

theorem applyToChar_toupper_mem :
    ∀ c ∈ lowerLetters, applyToChar toupper c ∈ upperLetters := by
  decide

theorem applyToChar_tolower_mem :
    ∀ c ∈ upperLetters, applyToChar tolower c ∈ lowerLetters := by
  decide

theorem upperLetters_not_lower : ∀ c ∈ upperLetters, c ∉ lowerLetters := by
  decide

theorem lowerLetters_not_upper : ∀ c ∈ lowerLetters, c ∉ upperLetters := by
  decide

/-- No character that `toupper` gives is a lowercase letter. -/
theorem applyToChar_toupper_not_lower (c : Char) :
    applyToChar toupper c ∉ lowerLetters := by
  by_cases h : c ∈ lowerLetters
  · exact upperLetters_not_lower _ (applyToChar_toupper_mem c h)
  · rw [applyToChar_toupper_other c h]; exact h

/-- No character that `tolower` gives is an uppercase letter. -/
theorem applyToChar_tolower_not_upper (c : Char) :
    applyToChar tolower c ∉ upperLetters := by
  by_cases h : c ∈ upperLetters
  · exact lowerLetters_not_upper _ (applyToChar_tolower_mem c h)
  · rw [applyToChar_tolower_other c h]; exact h

theorem applyToChar_toupper_idem (c : Char) :
    applyToChar toupper (applyToChar toupper c) = applyToChar toupper c :=
  applyToChar_toupper_other _ (applyToChar_toupper_not_lower c)

theorem applyToChar_tolower_idem (c : Char) :
    applyToChar tolower (applyToChar tolower c) = applyToChar tolower c :=
  applyToChar_tolower_other _ (applyToChar_tolower_not_upper c)

/-- After `tolower`, `toupper` gives what it gives on the character itself. -/
theorem applyToChar_toupper_tolower (c : Char) :
    applyToChar toupper (applyToChar tolower c) = applyToChar toupper c := by
  by_cases h : c ∈ upperLetters
  · have hall : ∀ x ∈ upperLetters,
        applyToChar toupper (applyToChar tolower x) = applyToChar toupper x := by decide
    exact hall c h
  · rw [applyToChar_tolower_other c h]

/-- After `toupper`, `tolower` gives what it gives on the character itself. -/
theorem applyToChar_tolower_toupper (c : Char) :
    applyToChar tolower (applyToChar toupper c) = applyToChar tolower c := by
  by_cases h : c ∈ lowerLetters
  · have hall : ∀ x ∈ lowerLetters,
        applyToChar tolower (applyToChar toupper x) = applyToChar tolower x := by decide
    exact hall c h
  · rw [applyToChar_toupper_other c h]

theorem transform_getElem? (op : Int → Int) (T : List Char) (i : Nat) :
    (transform op T)[i]? = (T[i]?).map (applyToChar op) := by
  simp [transform]

/-! ## More on `trim` -/

/-- A well-formed string that neither starts nor ends with whitespace is its
own trimmed form. -/
theorem trim_eq_self_of_ends (T : List Char) (h : T.length < npos)
    (hfirst : ∀ c, T.head? = some c → c ∉ whitespace)
    (hlast : ∀ c, T.getLast? = some c → c ∉ whitespace) :
    trim T = some T := by
  rcases trim_cases T h with ⟨h1, h2⟩ | ⟨s, e, a, b, hse, he, _, _, ht, _, _, _, _, hpre, hpost⟩
  · cases T with
    | nil => exact h1
    | cons c cs => exact absurd (h2 c (by simp)) (hfirst c rfl)
  · have hT : T ≠ [] := by
      intro h0; rw [h0] at he; simp at he
    have hs : s = 0 := by
      by_contra hne
      have h0 : T[0]? = some T[0] := List.getElem?_eq_getElem (by omega)
      exact hfirst T[0] (by rw [List.head?_eq_getElem?, h0]) (hpre 0 T[0] (by omega) h0)
    have hlen : e = T.length - 1 := by
      by_contra hne
      have hl : T[T.length - 1]? = some T[T.length - 1] :=
        List.getElem?_eq_getElem (by omega)
      exact hlast T[T.length - 1] (by rw [List.getLast?_eq_getElem?, hl])
        (hpost (T.length - 1) T[T.length - 1] (by omega) hl)
    rw [ht, hs, hlen, slice_whole T hT]

theorem slice_length_le (T : List Char) (s n : Nat) :
    ((T.drop s).take n).length ≤ T.length := by
  rw [List.length_take, List.length_drop]
  omega

/-- C11: `trim` is idempotent: on every well-formed input `T` it returns a
string `R`, and trimming `R` returns `R` again. -/
theorem trim_idempotent (T : List Char) (h : T.length < npos) :
    ∃ R, trim T = some R ∧ trim R = some R := by
  rcases trim_cases T h with ⟨h1, _⟩ | ⟨s, e, a, b, hse, he, _, _, ht, ha, ha2, hb, hb2, _, _⟩
  · exact ⟨[], h1, by decide⟩
  · refine ⟨(T.drop s).take (e - s + 1), ht, ?_⟩
    apply trim_eq_self_of_ends
    · have := slice_length_le T s (e - s + 1)
      omega
    · intro c hc
      rw [slice_head, ha] at hc
      simp only [Option.some.injEq] at hc
      rw [← hc]; exact ha2
    · intro c hc
      rw [slice_getLast T s e hse he, hb] at hc
      simp only [Option.some.injEq] at hc
      rw [← hc]; exact hb2

theorem trim_idempotent_witness :
    [' ', '\t', 'a', ' ', 'b', '\n', ' '].length < npos ∧
      ∃ R, trim [' ', '\t', 'a', ' ', 'b', '\n', ' '] = some R ∧ trim R = some R :=
  ⟨by decide, trim_idempotent [' ', '\t', 'a', ' ', 'b', '\n', ' '] (by decide)⟩

/-- C17: `trim` is total on well-formed inputs: it always returns a string.
When `T` holds a character that is not whitespace, `start` and `end` are
indices of `T` (so neither is `npos`) with `start ≤ end < size`, they are the
first and the last index of a character that is not whitespace, the `size_t`
value `end - start + 1` is the true length of the slice (no wrap-around), and
the slice `[start, end]` lies within `T`, so `substr` does not throw. -/
theorem trim_total (T : List Char) (h : T.length < npos) :
    (∃ R, trim T = some R) ∧
      ((∃ c ∈ T, c ∉ whitespace) →
        find_first_not_of T whitespace ≤ find_last_not_of T whitespace ∧
        find_last_not_of T whitespace < T.length ∧
        (∃ a, T[find_first_not_of T whitespace]? = some a ∧ a ∉ whitespace) ∧
        (∃ b, T[find_last_not_of T whitespace]? = some b ∧ b ∉ whitespace) ∧
        (∀ j c, j < find_first_not_of T whitespace → T[j]? = some c → c ∈ whitespace) ∧
        (∀ j c, find_last_not_of T whitespace < j → T[j]? = some c → c ∈ whitespace) ∧
        sliceLength (find_first_not_of T whitespace) (find_last_not_of T whitespace)
          = find_last_not_of T whitespace - find_first_not_of T whitespace + 1 ∧
        find_first_not_of T whitespace
          + sliceLength (find_first_not_of T whitespace) (find_last_not_of T whitespace)
          ≤ T.length ∧
        substr T (find_first_not_of T whitespace)
            (sliceLength (find_first_not_of T whitespace) (find_last_not_of T whitespace))
          = some ((T.drop (find_first_not_of T whitespace)).take
              (find_last_not_of T whitespace - find_first_not_of T whitespace + 1))) := by
  rcases trim_cases T h with
    ⟨h1, h2⟩ | ⟨s, e, a, b, hse, he, hs, hE, ht, ha, ha2, hb, hb2, hpre, hpost⟩
  · refine ⟨⟨[], h1⟩, ?_⟩
    rintro ⟨c, hc, hcw⟩
    exact absurd (h2 c hc) hcw
  · refine ⟨⟨_, ht⟩, fun _ => ?_⟩
    rw [hs, hE]
    have hlen : sliceLength s e = e - s + 1 := sliceLength_eq s e hse (by omega)
    refine ⟨hse, he, ⟨a, ha, ha2⟩, ⟨b, hb, hb2⟩, hpre, hpost, hlen, ?_, ?_⟩
    · rw [hlen]; omega
    · have hgt : ¬ s > T.length := by omega
      rw [substr, if_neg hgt, hlen]

theorem trim_total_witness :
    [' ', 'a', ' ', 'b', '\r'].length < npos ∧
      (∃ c ∈ [' ', 'a', ' ', 'b', '\r'], c ∉ whitespace) ∧
      find_first_not_of [' ', 'a', ' ', 'b', '\r'] whitespace
        ≤ find_last_not_of [' ', 'a', ' ', 'b', '\r'] whitespace ∧
      find_last_not_of [' ', 'a', ' ', 'b', '\r'] whitespace
        < [' ', 'a', ' ', 'b', '\r'].length :=
  ⟨by decide, ⟨'a', by decide, by decide⟩,
    ((trim_total [' ', 'a', ' ', 'b', '\r'] (by decide)).2 ⟨'a', by decide, by decide⟩).1,
    ((trim_total [' ', 'a', ' ', 'b', '\r'] (by decide)).2 ⟨'a', by decide, by decide⟩).2.1⟩

/-! ## More on `split` -/

theorem join_tokensOf_trailing (d : Char) (s : List Char) (h : s.getLast? = some d) :
    join (tokensOf d s) d ++ [d] = s := by
  induction s with
  | nil => simp at h
  | cons c cs ih =>
    cases cs with
    | nil =>
      have hc : c = d := by simpa using h
      simp [tokensOf, hc, join]
    | cons c2 cs =>
      have hlast : (c :: c2 :: cs).getLast? = (c2 :: cs).getLast? := by
        simp [List.getLast?_cons_cons]
      rw [hlast] at h
      have ih2 := ih h
      have hne := tokensOf_ne_nil d c2 cs
      cases ht : tokensOf d (c2 :: cs) with
      | nil => exact absurd ht hne
      | cons t ts =>
        rw [ht] at ih2
        by_cases hc : c = d
        · rw [tokensOf, if_pos hc, ht, join, hc]
          simp only [List.nil_append, List.cons_append]
          rw [ih2]
        · rw [tokensOf, if_neg hc, ht]
          simp only
          rw [join_cons_head, List.cons_append, ih2]

theorem flatten_tokensOf (d : Char) (s : List Char) :
    (tokensOf d s).flatten = s.filter (fun c => decide (c ≠ d)) := by
  induction s with
  | nil => simp [tokensOf]
  | cons c cs ih =>
    by_cases hc : c = d
    · have hf : (c :: cs).filter (fun x => decide (x ≠ d))
          = cs.filter (fun x => decide (x ≠ d)) := by
        simp [List.filter_cons, hc]
      rw [tokensOf, if_pos hc, List.flatten_cons, ih, hf]
      rfl
    · have hf : (c :: cs).filter (fun x => decide (x ≠ d))
          = c :: cs.filter (fun x => decide (x ≠ d)) := by
        simp [List.filter_cons, hc]
      rw [tokensOf, if_neg hc, hf, ← ih]
      cases ht : tokensOf d cs with
      | nil => rfl
      | cons t ts => rfl

/-- C18: when `T` ends with the delimiter `d`, `split T d` leaves out exactly
the empty token after that final delimiter: the join of the tokens followed by
one `d` is `T`; so `split "a," ','` is `["a"]`, `split "," ','` is `[""]` and
`split "a,," ','` is `["a", ""]`. -/
theorem split_trailing_delim (T : List Char) (d : Char) (h : T.getLast? = some d) :
    join (split T d) d ++ [d] = T ∧
      split ['a', ','] ',' = [['a']] ∧
      split [','] ',' = [[]] ∧
      split ['a', ',', ','] ',' = [['a'], []] := by
  refine ⟨?_, ?_, ?_, ?_⟩
  · rw [split_eq_tokensOf]
    exact join_tokensOf_trailing d T h
  · rw [split_eq_tokensOf]; decide
  · rw [split_eq_tokensOf]; decide
  · rw [split_eq_tokensOf]; decide

theorem split_trailing_delim_witness :
    [',', 'a', ',', 'b', ',', ','].getLast? = some ',' ∧
      join (split [',', 'a', ',', 'b', ',', ','] ',') ',' ++ [',']
        = [',', 'a', ',', 'b', ',', ','] :=
  ⟨by decide, (split_trailing_delim [',', 'a', ',', 'b', ',', ','] ',' (by decide)).1⟩

/-- C19: the tokens of `split T d`, concatenated in order, are `T` with every
occurrence of `d` removed and every other character kept in its place. -/
theorem split_flatten (T : List Char) (d : Char) :
    (split T d).flatten = T.filter (fun c => decide (c ≠ d)) := by
  rw [split_eq_tokensOf]
  exact flatten_tokensOf d T

/-! ## The properties of `toUpperCase` and `toLowerCase` -/

theorem transform_toupper_tolower (T : List Char) :
    transform toupper (transform tolower T) = transform toupper T := by
  simp only [transform, List.map_map]
  apply List.map_congr_left
  intro c _
  exact applyToChar_toupper_tolower c

theorem transform_tolower_toupper (T : List Char) :
    transform tolower (transform toupper T) = transform tolower T := by
  simp only [transform, List.map_map]
  apply List.map_congr_left
  intro c _
  exact applyToChar_tolower_toupper c

/-- C12: for an ASCII input `T` and a position `i` holding the character `c`:
when `c` is the `k`-th lowercase letter, `toUpperCase T` holds the `k`-th
uppercase letter at `i`; when `c` is not a lowercase letter, it holds `c`.
Hence no character of the result is a lowercase letter, as in
`toUpperCase "Hello123" = "HELLO123"`. -/
theorem toUpperCase_pointwise (T : List Char) (_hT : isAscii T) :
    (∀ (i : Nat) (c : Char), T[i]? = some c →
        (∀ k : Nat, lowerLetters[k]? = some c → (toUpperCase T)[i]? = upperLetters[k]?) ∧
        (c ∉ lowerLetters → (toUpperCase T)[i]? = some c)) ∧
      (∀ c ∈ toUpperCase T, c ∉ lowerLetters) ∧
      toUpperCase ['H', 'e', 'l', 'l', 'o', '1', '2', '3']
        = ['H', 'E', 'L', 'L', 'O', '1', '2', '3'] := by
  refine ⟨?_, ?_, by decide⟩
  · intro i c hc
    have hget : (toUpperCase T)[i]? = some (applyToChar toupper c) := by
      rw [toUpperCase, transform_getElem?, hc]; rfl
    constructor
    · intro k hk
      have hk26 : k < 26 := by
        rcases List.getElem?_eq_some_iff.mp hk with ⟨hlt, _⟩
        exact hlt
      rw [hget, ← applyToChar_toupper_letter k hk26, hk]; rfl
    · intro hnot
      rw [hget, applyToChar_toupper_other c hnot]
  · intro c hc
    simp only [toUpperCase, transform, List.mem_map] at hc
    rcases hc with ⟨x, _, hx⟩
    rw [← hx]
    exact applyToChar_toupper_not_lower x

theorem toUpperCase_pointwise_witness :
    isAscii ['a', 'Z', 'z', '1', ' ', 'q'] ∧
      (∀ (i : Nat) (c : Char), ['a', 'Z', 'z', '1', ' ', 'q'][i]? = some c →
        (∀ k : Nat, lowerLetters[k]? = some c →
          (toUpperCase ['a', 'Z', 'z', '1', ' ', 'q'])[i]? = upperLetters[k]?) ∧
        (c ∉ lowerLetters → (toUpperCase ['a', 'Z', 'z', '1', ' ', 'q'])[i]? = some c)) ∧
      toUpperCase ['a', 'Z', 'z', '1', ' ', 'q'] = ['A', 'Z', 'Z', '1', ' ', 'Q'] :=
  ⟨by unfold isAscii; decide,
    (toUpperCase_pointwise ['a', 'Z', 'z', '1', ' ', 'q'] (by unfold isAscii; decide)).1,
    by decide⟩

/-- C13: for an ASCII input `T` and a position `i` holding the character `c`:
when `c` is the `k`-th uppercase letter, `toLowerCase T` holds the `k`-th
lowercase letter at `i`; when `c` is not an uppercase letter, it holds `c`.
Hence no character of the result is an uppercase letter, as in
`toLowerCase "Hello123" = "hello123"`. -/
theorem toLowerCase_pointwise (T : List Char) (_hT : isAscii T) :
    (∀ (i : Nat) (c : Char), T[i]? = some c →
        (∀ k : Nat, upperLetters[k]? = some c → (toLowerCase T)[i]? = lowerLetters[k]?) ∧
        (c ∉ upperLetters → (toLowerCase T)[i]? = some c)) ∧
      (∀ c ∈ toLowerCase T, c ∉ upperLetters) ∧
      toLowerCase ['H', 'e', 'l', 'l', 'o', '1', '2', '3']
        = ['h', 'e', 'l', 'l', 'o', '1', '2', '3'] := by
  refine ⟨?_, ?_, by decide⟩
  · intro i c hc
    have hget : (toLowerCase T)[i]? = some (applyToChar tolower c) := by
      rw [toLowerCase, transform_getElem?, hc]; rfl
    constructor
    · intro k hk
      have hk26 : k < 26 := by
        rcases List.getElem?_eq_some_iff.mp hk with ⟨hlt, _⟩
        exact hlt
      rw [hget, ← applyToChar_tolower_letter k hk26, hk]; rfl
    · intro hnot
      rw [hget, applyToChar_tolower_other c hnot]
  · intro c hc
    simp only [toLowerCase, transform, List.mem_map] at hc
    rcases hc with ⟨x, _, hx⟩
    rw [← hx]
    exact applyToChar_tolower_not_upper x

theorem toLowerCase_pointwise_witness :
    isAscii ['A', 'z', 'Z', '9', '_', 'Q'] ∧
      (∀ (i : Nat) (c : Char), ['A', 'z', 'Z', '9', '_', 'Q'][i]? = some c →
        (∀ k : Nat, upperLetters[k]? = some c →
          (toLowerCase ['A', 'z', 'Z', '9', '_', 'Q'])[i]? = lowerLetters[k]?) ∧
        (c ∉ upperLetters → (toLowerCase ['A', 'z', 'Z', '9', '_', 'Q'])[i]? = some c)) ∧
      toLowerCase ['A', 'z', 'Z', '9', '_', 'Q'] = ['a', 'z', 'z', '9', '_', 'q'] :=
  ⟨by unfold isAscii; decide,
    (toLowerCase_pointwise ['A', 'z', 'Z', '9', '_', 'Q'] (by unfold isAscii; decide)).1,
    by decide⟩

/-- C14: both case conversions return a string of the length of the input. -/
theorem case_conversion_length (T : List Char) :
    (toUpperCase T).length = T.length ∧ (toLowerCase T).length = T.length := by
  simp [toUpperCase, toLowerCase, transform]

/-- C15: both case conversions are idempotent. -/
theorem case_conversion_idempotent (T : List Char) :
    toUpperCase (toUpperCase T) = toUpperCase T ∧
      toLowerCase (toLowerCase T) = toLowerCase T := by
  constructor
  · simp only [toUpperCase, transform, List.map_map]
    apply List.map_congr_left
    intro c _
    exact applyToChar_toupper_idem c
  · simp only [toLowerCase, transform, List.map_map]
    apply List.map_congr_left
    intro c _
    exact applyToChar_tolower_idem c

/-- C16: on an input made of ASCII letters only, converting to lowercase first
does not change the uppercase form. -/
theorem upper_of_lower_letters (T : List Char)
    (_hT : ∀ c ∈ T, c ∈ lowerLetters ∨ c ∈ upperLetters) :
    toUpperCase (toLowerCase T) = toUpperCase T := by
  simp only [toUpperCase, toLowerCase]
  exact transform_toupper_tolower T

theorem upper_of_lower_letters_witness :
    (∀ c ∈ ['H', 'e', 'L', 'l', 'o', 'Z', 'a'], c ∈ lowerLetters ∨ c ∈ upperLetters) ∧
      toUpperCase (toLowerCase ['H', 'e', 'L', 'l', 'o', 'Z', 'a'])
        = toUpperCase ['H', 'e', 'L', 'l', 'o', 'Z', 'a'] ∧
      toUpperCase ['H', 'e', 'L', 'l', 'o', 'Z', 'a'] = ['H', 'E', 'L', 'L', 'O', 'Z', 'A'] :=
  ⟨by decide, upper_of_lower_letters ['H', 'e', 'L', 'l', 'o', 'Z', 'a'] (by decide),
    by decide⟩

/-- C20: on every ASCII input, letters or not, the last case conversion applied
decides the result: `toUpperCase` after `toLowerCase` is `toUpperCase`, and
`toLowerCase` after `toUpperCase` is `toLowerCase`. -/
theorem last_case_conversion_wins (T : List Char) (_hT : isAscii T) :
    toUpperCase (toLowerCase T) = toUpperCase T ∧
      toLowerCase (toUpperCase T) = toLowerCase T := by
  simp only [toUpperCase, toLowerCase]
  exact ⟨transform_toupper_tolower T, transform_tolower_toupper T⟩

theorem last_case_conversion_wins_witness :
    isAscii ['H', 'i', '!', ' ', '4', '2', '[', 'z', '@'] ∧
      (toUpperCase (toLowerCase ['H', 'i', '!', ' ', '4', '2', '[', 'z', '@'])
          = toUpperCase ['H', 'i', '!', ' ', '4', '2', '[', 'z', '@'] ∧
        toLowerCase (toUpperCase ['H', 'i', '!', ' ', '4', '2', '[', 'z', '@'])
          = toLowerCase ['H', 'i', '!', ' ', '4', '2', '[', 'z', '@']) :=
  ⟨by unfold isAscii; decide,
    last_case_conversion_wins ['H', 'i', '!', ' ', '4', '2', '[', 'z', '@']
      (by unfold isAscii; decide)⟩

end StringUtils
